import Mathlib

/-!
Verification of the core of `book-maker.py`: a script that drives an lc0
subprocess, probes its search tree with a `dumpnode` diagnostic command, and
writes the resulting weighted moves as a Polyglot opening book.

The shallow embedding below translates the script's pure core:
* `move_to_polyglot_int` — the 16-bit Polyglot move encoding;
* `make_entry` — building one book entry (the external
  `chess.polyglot.zobrist_hash` is kept abstract as a parameter, and a board
  reached from the root is identified with its move path from the root);
* `write_polyglot_bin` — sorting entries by key and packing each one with the
  big-endian layout of `chess.polyglot.ENTRY_STRUCT` (`struct.Struct` with
  format `>QHHI`), modelled as a byte list;
* `LeelaInterface.probe` — the line-oriented response parsing loop, modelled
  over the list of text lines the subprocess produces (the external
  `chess.Move.from_uci` is kept abstract: a parsed move is its raw token);
* `explore_tree` — the recursive expansion of the engine-reported tree,
  modelled over a finite probe tree giving each node's children with their
  visit counts;
* the `--multiwrite` loop of the `__main__` block, modelled with explicit
  fuel since the Python loop's termination depends on the engine's finite
  tree.
-/

namespace BookMaker

/-- Promotion piece kinds that can appear in `move.promotion`; `python-chess`
uses `None` or one of `KNIGHT`, `BISHOP`, `ROOK`, `QUEEN` for legal
promotions. -/
inductive Promo where
  | knight
  | bishop
  | rook
  | queen
deriving DecidableEq, Repr

/-- A `chess.Move`: origin square, destination square (both 0..63), optional
promotion piece. -/
structure Move where
  from_square : Nat
  to_square : Nat
  promotion : Option Promo
deriving DecidableEq, Repr

/-- A `chess.polyglot.Entry` record: 64-bit key, 16-bit raw move, 16-bit
weight, 32-bit learn tag. -/
structure Entry where
  key : Nat
  raw_move : Nat
  weight : Nat
  learn : Nat
deriving DecidableEq, Repr

/-- The promotion-code dictionary of `move_to_polyglot_int` (lines 14-20):
`None` maps to 0, knight 1, bishop 2, rook 3, queen 4. -/
def promoCode : Option Promo → Nat
  | Option.none => 0
  | some Promo.knight => 1
  | some Promo.bishop => 2
  | some Promo.rook => 3
  | some Promo.queen => 4

/-- `move_to_polyglot_int(board, move)` (lines 8-21).  The Python function
also receives `board` but never reads it; its body is literally
`to_square | (from_square << 6) | (promotion << 12)`.  Note that despite the
comment in the source about patching up castling destinations, no such
patch-up is present in the code. -/
def move_to_polyglot_int (move : Move) : Nat :=
  move.to_square ||| (move.from_square <<< 6) ||| (promoCode move.promotion <<< 12)

/-- `make_entry(board, move, weight, learn)` (lines 24-27).  The external
`chess.polyglot.zobrist_hash` is abstracted as `zobrist_hash`, and the board
is identified with the move path that produced it from the root. -/
def make_entry (zobrist_hash : List Move → Nat) (board : List Move) (move : Move)
    (weight : Nat) (learn : Nat) : Entry :=
  { key := zobrist_hash board
    raw_move := move_to_polyglot_int move
    weight := weight
    learn := learn }

/-- Big-endian byte list of `value` in `width` bytes, most significant byte
first: the layout `struct.Struct` produces for each fixed-width field of the
`>QHHI` format. -/
def beBytes : Nat → Nat → List Nat
  | 0, _ => []
  | w + 1, v => v / 256 ^ w % 256 :: beBytes w v

/-- Reassemble a big-endian byte list into the number it denotes. -/
def beValue (bytes : List Nat) : Nat :=
  bytes.foldl (fun a b => 256 * a + b) 0

/-- One packed entry: `chess.polyglot.ENTRY_STRUCT.pack(*entry)` with the
format `>QHHI` — 8-byte key, 2-byte raw move, 2-byte weight, 4-byte learn,
all big-endian. -/
def pack_entry (e : Entry) : List Nat :=
  beBytes 8 e.key ++ beBytes 2 e.raw_move ++ beBytes 2 e.weight ++ beBytes 4 e.learn

/-- The comparison used by `sorted(entries, key=lambda entry: entry.key)`. -/
def entry_le (a b : Entry) : Bool :=
  decide (a.key ≤ b.key)

/-- `write_polyglot_bin(f, entries)` (lines 30-33): sort the entries by key
with Python's stable `sorted` (modelled by the stable `List.mergeSort`) and
write each packed record in order; the output is the flat byte stream. -/
def write_polyglot_bin (entries : List Entry) : List Nat :=
  ((entries.mergeSort entry_le).map pack_entry).flatten

/-- A finite view of the engine's search tree as reported by `dumpnode`: each
node carries the list of child moves with their visit counts and subtrees, in
the order the probe reports them (which is the insertion order of the Python
dict built by `probe`). -/
inductive PTree where
  | node (children : List (Move × Nat × PTree)) : PTree

/-- Python's `max(children, key=children.__getitem__)` over a dict: scan the
items in order, keeping the first element whose visit count is not exceeded
by a later one (replacement happens only on a strictly greater count). -/
def maxChild (c : Move × Nat × PTree) : List (Move × Nat × PTree) → Move × Nat × PTree
  | [] => c
  | d :: rest => if d.2.1 > c.2.1 then maxChild d rest else maxChild c rest

/-- The best move of a probe result, `none` when the result is empty. -/
def bestChild : List (Move × Nat × PTree) → Option (Move × Nat × PTree)
  | [] => Option.none
  | c :: rest => some (maxChild c rest)

/-- `explore_tree(args, leela, entries, board, moves, visit_threshold)`
(lines 86-101), with the accumulating `entries` list made the return value
(appends happen in the same order).  `leela.probe(moves)` is modelled by the
node of a finite probe tree; the chess board is identified with the move path
`moves`, so `board.copy(); board.push(move)` becomes `moves ++ [move]`
together with descending into the child's subtree. -/
def explore_tree (zobrist_hash : List Move → Nat) (tree : PTree) (moves : List Move)
    (visit_threshold : Nat) : List Entry :=
  match tree with
  | PTree.node [] => []
  | PTree.node (c :: rest) =>
    let best := maxChild c rest
    make_entry zobrist_hash moves best.1 (min 0xffff (best.2.1 / 256)) 0
      :: ((c :: rest).attach.map fun x =>
            if x.1.2.1 < visit_threshold then []
            else explore_tree zobrist_hash x.1.2.2 (moves ++ [x.1.1]) visit_threshold).flatten
termination_by sizeOf tree
decreasing_by
  obtain ⟨⟨m, v, t⟩, hmem⟩ := x
  have h := List.sizeOf_lt_of_mem hmem
  simp only [PTree.node.sizeOf_spec, Prod.mk.sizeOf_spec] at h ⊢
  omega

/-- The output filename used by the multiwrite loop (line 142):
`args.output + "-" + str(threshold) + "n.bin"`. -/
def book_file_name (output : String) (threshold : Nat) : String :=
  output ++ "-" ++ toString threshold ++ "n.bin"

/-- The `--multiwrite` loop body (lines 131-147): probe the tree at the
current threshold; if more than 2 entries result, write them to the
threshold-suffixed file and double the threshold, otherwise stop.  The
returned list pairs each written filename with the entries written to it.
Explicit fuel bounds the number of iterations; the Python loop terminates
because doubling eventually exceeds every visit count in the finite tree. -/
def multiwrite_loop (zobrist_hash : List Move → Nat) (tree : PTree) (output : String)
    (threshold : Nat) : Nat → List (String × List Entry)
  | 0 => []
  | fuel + 1 =>
    let entries := explore_tree zobrist_hash tree [] threshold
    if 2 < entries.length then
      (book_file_name output threshold, entries)
        :: multiwrite_loop zobrist_hash tree output (threshold * 2) fuel
    else []

/-- The multiwrite mode: the loop starts at threshold 256 (line 133). -/
def multiwrite (zobrist_hash : List Move → Nat) (tree : PTree) (output : String)
    (fuel : Nat) : List (String × List Entry) :=
  multiwrite_loop zobrist_hash tree output 256 fuel

/-- Substring containment on character lists: Python's `pat in line`. -/
def containsSub (pat : List Char) : List Char → Bool
  | [] => pat.isEmpty
  | c :: rest => pat.isPrefixOf (c :: rest) || containsSub pat rest

/-- Leftmost-match token extraction modelling `re.search(pat ++ "([^ ]+)", s)`
for a literal `pat`: find the leftmost occurrence of `pat` that is followed by
at least one non-space character and return the maximal run of non-space
characters after it. -/
def tokenAfter (pat : List Char) : List Char → Option (List Char)
  | [] => Option.none
  | c :: rest =>
    if pat.isPrefixOf (c :: rest) then
      let tok := ((c :: rest).drop pat.length).takeWhile (fun ch => ch ≠ ' ')
      if tok.isEmpty then tokenAfter pat rest else some tok
    else tokenAfter pat rest

/-- Python's `int(...)` on the captured token, for plain decimal numerals:
every character must be a digit, and the empty token is rejected. -/
def parseNatChars (cs : List Char) : Option Nat :=
  if cs.isEmpty then Option.none
  else if cs.all Char.isDigit then
    some (cs.foldl (fun a c => 10 * a + (c.toNat - 48)) 0)
  else Option.none

/-- Parsing of one `dumpnode` response line (lines 77-78): extract the
`move=` token (handed to the external `chess.Move.from_uci`, kept abstract as
the raw token) and the `n=` token converted by `int`.  Any failure — missing
token or non-numeric count — raises in Python; here it yields `none`. -/
def parseLine (line : String) : Option (String × Nat) :=
  match tokenAfter ("move=".data) line.data with
  | Option.none => Option.none
  | some mv =>
    match tokenAfter ("n=".data) line.data with
    | Option.none => Option.none
    | some ns =>
      match parseNatChars ns with
      | Option.none => Option.none
      | some n => some (String.mk mv, n)

/-- Python dict assignment `children[move] = visits` on an insertion-ordered
association list: overwrite in place if the key exists, else append. -/
def dictInsert (k : String) (v : Nat) : List (String × Nat) → List (String × Nat)
  | [] => [(k, v)]
  | (k2, v2) :: rest =>
    if k2 = k then (k2, v) :: rest else (k2, v2) :: dictInsert k v rest

/-- The read loop of `LeelaInterface.probe` (lines 71-83) over the list of
response lines: stop successfully at the first line containing `end-dump`;
otherwise parse the line, raising (modelled as `Except.error`) on a parse
failure.  Exhausting the list models the stream's end: `readline` then yields
an empty line, which contains no sentinel and fails to parse, so Python
raises there as well. -/
def probe_lines : List String → List (String × Nat) → Except String (List (String × Nat))
  | [], _ => Except.error "stream ended with no end-dump sentinel"
  | l :: rest, acc =>
    if containsSub ("end-dump".data) l.data then Except.ok acc
    else
      match parseLine l with
      | some (m, n) => probe_lines rest (dictInsert m n acc)
      | Option.none => Except.error ("Line: " ++ l)

/-- `LeelaInterface.probe(moves)` response handling, starting from the empty
dict. -/
def probe (lines : List String) : Except String (List (String × Nat)) :=
  probe_lines lines []

/-- The command line sent by `probe` (line 70):
`"dumpnode moves%s\n" % "".join(" %s" % move.uci() for move in moves)`, with
each move given by its UCI (long-algebraic) serialization produced by the
external `move.uci()`. -/
def dump_command (moves : List String) : String :=
  "dumpnode moves" ++ String.join (moves.map (fun m => " " ++ m)) ++ "\n"

/-- Space-separated concatenation, the target shape for `dump_command`. -/
def spaceSeparated : List String → String
  | [] => ""
  | [m] => m
  | m :: m2 :: rest => m ++ " " ++ spaceSeparated (m2 :: rest)

/-! ### Helper lemmas about the move encoding -/

/-- The promotion code never exceeds 4. -/
lemma promoCode_le (p : Option Promo) : promoCode p ≤ 4 := by
  cases p with
  | none => exact Nat.le_of_lt_succ (by decide)
  | some q => cases q <;> simp [promoCode]

/-- Because the three bit fields are disjoint, the bitwise packing of
`move_to_polyglot_int` coincides with plain arithmetic. -/
lemma move_to_polyglot_int_eq_add (m : Move) (hf : m.from_square < 64)
    (ht : m.to_square < 64) :
    move_to_polyglot_int m
      = m.to_square + 64 * m.from_square + 4096 * promoCode m.promotion := by
  unfold move_to_polyglot_int
  have h6 : m.from_square <<< 6 = 2 ^ 6 * m.from_square := by
    rw [Nat.shiftLeft_eq]; ring
  have h12 : promoCode m.promotion <<< 12 = 2 ^ 12 * promoCode m.promotion := by
    rw [Nat.shiftLeft_eq]; ring
  have ht6 : m.to_square < 2 ^ 6 := ht
  have step1 : m.to_square ||| m.from_square <<< 6 = 2 ^ 6 * m.from_square + m.to_square := by
    rw [Nat.lor_comm, h6, ← Nat.mul_add_lt_is_or ht6]
  have hlt12 : 2 ^ 6 * m.from_square + m.to_square < 2 ^ 12 := by
    have : (2 : Nat) ^ 6 = 64 := by norm_num
    rw [this]; omega
  rw [step1, h12, Nat.lor_comm, ← Nat.mul_add_lt_is_or hlt12]
  ring

/-- Claim C1 (counter-evaluation): the source's comment (and the Polyglot
format) requires the destination field of a castling move to be the rook's
start square, but `move_to_polyglot_int` applies no such patch-up.  For white
kingside castling, `python-chess` and lc0 represent the move as `e1g1`
(`from_square = 4`, `to_square = 6`); the encoded destination field is 6
(`g1`, the king's landing square) rather than 7 (`h1`, the rook's start
square).  Likewise black queenside castling `e8c8` (`from_square = 60`,
`to_square = 58`) encodes destination 58 (`c8`) rather than 56 (`a8`). -/
theorem castling_destination_not_patched :
    move_to_polyglot_int { from_square := 4, to_square := 6, promotion := Option.none } % 64 = 6
      ∧ (6 : Nat) ≠ 7
      ∧ move_to_polyglot_int { from_square := 60, to_square := 58, promotion := Option.none } % 64 = 58
      ∧ (58 : Nat) ≠ 56 := by
  decide

/-- Claim C8: for any move with valid square numbers (0..63) —
castling aside, where the intended destination differs, the noted encoding
is what the code computes for every move — the encoded 16-bit value carries
the destination square in bits 0-5, the origin square in bits 6-11 and the
promotion code in bits 12-14 with the mapping none 0, knight 1, bishop 2,
rook 3, queen 4, and the result fits in 16 bits. -/
theorem move_encoding_fields (m : Move) (hf : m.from_square < 64)
    (ht : m.to_square < 64) :
    move_to_polyglot_int m % 64 = m.to_square
      ∧ move_to_polyglot_int m / 64 % 64 = m.from_square
      ∧ move_to_polyglot_int m / 4096 % 8 = promoCode m.promotion
      ∧ move_to_polyglot_int m < 65536
      ∧ promoCode Option.none = 0
      ∧ promoCode (some Promo.knight) = 1
      ∧ promoCode (some Promo.bishop) = 2
      ∧ promoCode (some Promo.rook) = 3
      ∧ promoCode (some Promo.queen) = 4 := by
  have hp := promoCode_le m.promotion
  rw [move_to_polyglot_int_eq_add m hf ht]
  refine ⟨?_, ?_, ?_, ?_, rfl, rfl, rfl, rfl, rfl⟩ <;> omega

/-- Witness for `move_encoding_fields`: the promotion move a7a8q
(`from_square = 48`, `to_square = 56`, queen promotion). -/
theorem move_encoding_fields_witness :
    (48 : Nat) < 64 ∧ (56 : Nat) < 64 ∧
      (move_to_polyglot_int { from_square := 48, to_square := 56, promotion := some Promo.queen } % 64 = 56
        ∧ move_to_polyglot_int { from_square := 48, to_square := 56, promotion := some Promo.queen } / 64 % 64 = 48
        ∧ move_to_polyglot_int { from_square := 48, to_square := 56, promotion := some Promo.queen } / 4096 % 8
            = promoCode (some Promo.queen)
        ∧ move_to_polyglot_int { from_square := 48, to_square := 56, promotion := some Promo.queen } < 65536
        ∧ promoCode Option.none = 0
        ∧ promoCode (some Promo.knight) = 1
        ∧ promoCode (some Promo.bishop) = 2
        ∧ promoCode (some Promo.rook) = 3
        ∧ promoCode (some Promo.queen) = 4) :=
  ⟨by decide, by decide,
    move_encoding_fields { from_square := 48, to_square := 56, promotion := some Promo.queen }
      (by decide) (by decide)⟩

/-! ### Helper lemmas about the tree exploration -/

/-- Unfolding of `explore_tree` at a node with a non-empty probe result,
with the `attach` bookkeeping removed. -/
lemma explore_tree_cons (z : List Move → Nat) (c : Move × Nat × PTree)
    (rest : List (Move × Nat × PTree)) (moves : List Move) (t : Nat) :
    explore_tree z (PTree.node (c :: rest)) moves t =
      make_entry z moves (maxChild c rest).1 (min 0xffff ((maxChild c rest).2.1 / 256)) 0
        :: ((c :: rest).map fun x =>
              if x.2.1 < t then [] else explore_tree z x.2.2 (moves ++ [x.1]) t).flatten := by
  rw [explore_tree]
  rw [List.attach_map_val (c :: rest)
    (fun x => if x.2.1 < t then [] else explore_tree z x.2.2 (moves ++ [x.1]) t)]

/-- The result of Python's `max` scan is one of the scanned elements. -/
lemma maxChild_mem : ∀ (rest : List (Move × Nat × PTree)) (c : Move × Nat × PTree),
    maxChild c rest ∈ c :: rest := by
  intro rest
  induction rest with
  | nil => intro c; simp [maxChild]
  | cons d rest ih =>
    intro c
    rw [maxChild]
    by_cases h : d.2.1 > c.2.1
    · simp only [h, if_pos]
      have := ih d
      simp only [List.mem_cons] at this ⊢
      tauto
    · simp only [h, if_neg, not_false_iff]
      have := ih c
      simp only [List.mem_cons] at this ⊢
      tauto

/-- The result of Python's `max` scan has a maximal visit count. -/
lemma maxChild_ge : ∀ (rest : List (Move × Nat × PTree)) (c : Move × Nat × PTree),
    ∀ x ∈ c :: rest, x.2.1 ≤ (maxChild c rest).2.1 := by
  intro rest
  induction rest with
  | nil =>
    intro c x hx
    simp only [List.mem_singleton] at hx
    subst hx
    simp [maxChild]
  | cons d rest ih =>
    intro c x hx
    rw [maxChild]
    simp only [List.mem_cons] at hx
    by_cases h : d.2.1 > c.2.1
    · simp only [h, if_pos]
      rcases hx with hx | hx | hx
      · subst hx
        exact Nat.le_trans (Nat.le_of_lt h) (ih d d (List.mem_cons_self d rest))
      · subst hx
        exact ih x x (List.mem_cons_self x rest)
      · exact ih d x (List.mem_cons_of_mem d hx)
    · simp only [h, if_neg, not_false_iff]
      rcases hx with hx | hx | hx
      · subst hx
        exact ih x x (List.mem_cons_self x rest)
      · subst hx
        exact Nat.le_trans (Nat.le_of_not_lt h) (ih c c (List.mem_cons_self c rest))
      · exact ih c x (List.mem_cons_of_mem c hx)

/-- Skipping the below-threshold children inside the loop is the same as
filtering them out before the loop. -/
lemma flatten_map_ite (l : List (Move × Nat × PTree)) (t : Nat)
    (f : Move × Nat × PTree → List Entry) :
    (l.map fun x => if x.2.1 < t then [] else f x).flatten
      = ((l.filter fun x => decide (t ≤ x.2.1)).map f).flatten := by
  induction l with
  | nil => rfl
  | cons a l ih =>
    by_cases h : a.2.1 < t
    · simp [List.filter_cons, h, Nat.not_le.mpr h, ih]
    · simp [List.filter_cons, h, Nat.le_of_not_lt h, ih]

/-- Claim C7: a position whose probe result is the empty mapping ends the
branch normally: `explore_tree` emits no record there and does not recurse
(the function totally evaluates to the empty entry list). -/
theorem explore_tree_empty_probe (zobrist_hash : List Move → Nat) (moves : List Move)
    (visit_threshold : Nat) :
    explore_tree zobrist_hash (PTree.node []) moves visit_threshold = [] := by
  rw [explore_tree]

/-- Claim C3: at any node with a non-empty probe result, the move recorded by
`explore_tree` (the head of its output) is a move of that result attaining
the maximum visit count; ties go to whichever qualifying element the scan
meets first, which is acceptable. -/
theorem explore_tree_best_move (z : List Move → Nat) (c : Move × Nat × PTree)
    (rest : List (Move × Nat × PTree)) (moves : List Move) (t : Nat) :
    ∃ best, bestChild (c :: rest) = some best
      ∧ best ∈ c :: rest
      ∧ (∀ x ∈ c :: rest, x.2.1 ≤ best.2.1)
      ∧ (explore_tree z (PTree.node (c :: rest)) moves t).head? =
          some (make_entry z moves best.1 (min 0xffff (best.2.1 / 256)) 0) := by
  refine ⟨maxChild c rest, rfl, maxChild_mem rest c, maxChild_ge rest c, ?_⟩
  rw [explore_tree_cons]
  rfl

/-- Claim C2: at any node with a non-empty probe result, `explore_tree`
emits exactly one record for that position — the head of its output, all
later entries coming from recursive calls on child subtrees — and that
record's weight is `min 65535 (v / 256)` for the best move's visit count `v`
(so it never exceeds 65535) while its learn field is 0; at the boundaries
`v = 256 * 65535` and `v = 256 * 65535 + 255` the weight is 65535. -/
theorem explore_tree_entry_weight (z : List Move → Nat) (c : Move × Nat × PTree)
    (rest : List (Move × Nat × PTree)) (moves : List Move) (t : Nat) :
    ∃ best, bestChild (c :: rest) = some best
      ∧ explore_tree z (PTree.node (c :: rest)) moves t =
          make_entry z moves best.1 (min 0xffff (best.2.1 / 256)) 0
            :: ((c :: rest).map fun x =>
                  if x.2.1 < t then [] else explore_tree z x.2.2 (moves ++ [x.1]) t).flatten
      ∧ (make_entry z moves best.1 (min 0xffff (best.2.1 / 256)) 0).weight
          = min 65535 (best.2.1 / 256)
      ∧ (make_entry z moves best.1 (min 0xffff (best.2.1 / 256)) 0).learn = 0
      ∧ (make_entry z moves best.1 (min 0xffff (best.2.1 / 256)) 0).weight ≤ 65535
      ∧ min 65535 (256 * 65535 / 256) = 65535
      ∧ min 65535 ((256 * 65535 + 255) / 256) = 65535 := by
  refine ⟨maxChild c rest, rfl, explore_tree_cons z c rest moves t, rfl, rfl, ?_, by decide, by decide⟩
  exact Nat.min_le_left _ _

/-- Claim C4: the entries beyond the head are produced by recursing exactly
into the children whose visit count reaches the threshold, each explored on
its own subtree with the move path extended by its move; a child below the
threshold is dropped by the filter, hence neither recursed into nor the
source of any record. -/
theorem explore_tree_prunes (z : List Move → Nat) (children : List (Move × Nat × PTree))
    (moves : List Move) (t : Nat) :
    (explore_tree z (PTree.node children) moves t).drop 1
        = ((children.filter fun x => decide (t ≤ x.2.1)).map
            fun x => explore_tree z x.2.2 (moves ++ [x.1]) t).flatten
      ∧ ∀ x : Move × Nat × PTree,
          x ∈ children.filter (fun x => decide (t ≤ x.2.1)) ↔ x ∈ children ∧ t ≤ x.2.1 := by
  constructor
  · match children with
    | [] =>
      rw [explore_tree]
      rfl
    | c :: rest =>
      rw [explore_tree_cons, List.drop_one, List.tail_cons, flatten_map_ite]
  · intro x
    simp [List.mem_filter]

/-! ### Helper lemmas about the binary book writer -/

/-- The key comparison is transitive. -/
lemma entry_le_trans (a b c : Entry) : entry_le a b → entry_le b c → entry_le a c := by
  simp only [entry_le, decide_eq_true_eq]
  exact Nat.le_trans

/-- The key comparison is total. -/
lemma entry_le_total (a b : Entry) : entry_le a b || entry_le b a := by
  simp only [entry_le]
  rcases Nat.le_total a.key b.key with h | h <;> simp [h]

/-- A big-endian field always has exactly its declared width. -/
lemma beBytes_length : ∀ (w v : Nat), (beBytes w v).length = w := by
  intro w
  induction w with
  | zero => intro v; rfl
  | succ w ih => intro v; simp [beBytes, ih]

/-- Folding the big-endian bytes of `v` onto an accumulator `a` shifts `a`
past the field and adds the low `w` bytes of `v`. -/
lemma beValue_foldl : ∀ (w v a : Nat),
    (beBytes w v).foldl (fun x b => 256 * x + b) a = a * 256 ^ w + v % 256 ^ w := by
  intro w
  induction w with
  | zero =>
    intro v a
    simp [beBytes, Nat.mod_one]
  | succ w ih =>
    intro v a
    rw [beBytes]
    simp only [List.foldl_cons]
    rw [ih]
    rw [Nat.pow_succ, Nat.mod_mul]
    ring

/-- Decoding inverts the big-endian encoding of any value that fits. -/
lemma beValue_beBytes (w v : Nat) (h : v < 256 ^ w) : beValue (beBytes w v) = v := by
  unfold beValue
  rw [beValue_foldl]
  simp [Nat.mod_eq_of_lt h]

/-- Every packed record occupies exactly 16 bytes. -/
lemma pack_entry_length (e : Entry) : (pack_entry e).length = 16 := by
  simp [pack_entry, beBytes_length]

/-- The byte stream of a list of records is 16 bytes per record. -/
lemma flatten_pack_length : ∀ l : List Entry, ((l.map pack_entry).flatten).length = 16 * l.length := by
  intro l
  induction l with
  | nil => rfl
  | cons e l ih =>
    simp only [List.map_cons, List.flatten_cons, List.length_append, ih,
      pack_entry_length, List.length_cons]
    ring

/-- Field recovery from a packed record: with every field in range (which
`struct.pack` enforces by raising otherwise), the four big-endian fields sit
at offsets 0, 8, 10 and 12 with widths 8, 2, 2 and 4 bytes. -/
lemma pack_entry_fields (e : Entry) (hk : e.key < 256 ^ 8) (hm : e.raw_move < 256 ^ 2)
    (hw : e.weight < 256 ^ 2) (hl : e.learn < 256 ^ 4) :
    beValue ((pack_entry e).take 8) = e.key
      ∧ beValue (((pack_entry e).drop 8).take 2) = e.raw_move
      ∧ beValue (((pack_entry e).drop 10).take 2) = e.weight
      ∧ beValue ((pack_entry e).drop 12) = e.learn := by
  have h8 := beBytes_length 8 e.key
  have h2 := beBytes_length 2 e.raw_move
  have h2w := beBytes_length 2 e.weight
  have h10 : (beBytes 8 e.key ++ beBytes 2 e.raw_move).length = 10 := by
    simp [beBytes_length]
  have h12 : ((beBytes 8 e.key ++ beBytes 2 e.raw_move) ++ beBytes 2 e.weight).length = 12 := by
    simp [beBytes_length]
  refine ⟨?_, ?_, ?_, ?_⟩
  · rw [pack_entry, List.append_assoc, List.append_assoc, List.take_left' h8,
      beValue_beBytes 8 e.key hk]
  · rw [pack_entry, List.append_assoc, List.append_assoc, List.drop_left' h8,
      List.take_left' h2, beValue_beBytes 2 e.raw_move hm]
  · rw [pack_entry, List.append_assoc, List.drop_left' h10, List.take_left' h2w,
      beValue_beBytes 2 e.weight hw]
  · rw [pack_entry, List.drop_left' h12, beValue_beBytes 4 e.learn hl]

/-- Claim C6: `write_polyglot_bin` writes the records in ascending key order
produced by a stable sort (a sorted sublist of the input survives into the
output order; equal keys are otherwise unconstrained), each record as the
fixed 16-byte big-endian structure 8-byte key, 2-byte move code, 2-byte
weight, 4-byte learn, with no header or framing; the key sequence of the
written records is non-decreasing and the stream is 16 bytes per record. -/
theorem write_polyglot_bin_spec (entries : List Entry) :
    (entries.mergeSort entry_le).Perm entries
      ∧ List.Pairwise (fun a b => a.key ≤ b.key) (entries.mergeSort entry_le)
      ∧ (∀ c : List Entry, c.Pairwise (fun a b => entry_le a b = true) →
          c.Sublist entries → c.Sublist (entries.mergeSort entry_le))
      ∧ write_polyglot_bin entries = ((entries.mergeSort entry_le).map pack_entry).flatten
      ∧ (write_polyglot_bin entries).length = 16 * entries.length
      ∧ (∀ e : Entry, e.key < 256 ^ 8 → e.raw_move < 256 ^ 2 → e.weight < 256 ^ 2 →
          e.learn < 256 ^ 4 →
          (pack_entry e).length = 16
            ∧ beValue ((pack_entry e).take 8) = e.key
            ∧ beValue (((pack_entry e).drop 8).take 2) = e.raw_move
            ∧ beValue (((pack_entry e).drop 10).take 2) = e.weight
            ∧ beValue ((pack_entry e).drop 12) = e.learn) := by
  refine ⟨List.mergeSort_perm entries entry_le, ?_, ?_, rfl, ?_, ?_⟩
  · have h := List.sorted_mergeSort entry_le_trans entry_le_total entries
    exact h.imp (fun hab => by simpa [entry_le] using hab)
  · intro c hc hsub
    exact List.sublist_mergeSort entry_le_trans entry_le_total hc hsub
  · rw [write_polyglot_bin, flatten_pack_length,
      (List.mergeSort_perm entries entry_le).length_eq]
  · intro e hk hm hw hl
    obtain ⟨h1, h2, h3, h4⟩ := pack_entry_fields e hk hm hw hl
    exact ⟨pack_entry_length e, h1, h2, h3, h4⟩

/-- Witness for `write_polyglot_bin_spec`: a concrete two-record book, with
the per-record layout conjunct instantiated at a concrete in-range entry. -/
theorem write_polyglot_bin_spec_witness :
    ((3 : Nat) < 256 ^ 8 ∧ (262 : Nat) < 256 ^ 2 ∧ (10 : Nat) < 256 ^ 2 ∧ (0 : Nat) < 256 ^ 4)
      ∧ ((pack_entry { key := 3, raw_move := 262, weight := 10, learn := 0 }).length = 16
          ∧ beValue ((pack_entry { key := 3, raw_move := 262, weight := 10, learn := 0 }).take 8) = 3
          ∧ beValue (((pack_entry { key := 3, raw_move := 262, weight := 10, learn := 0 }).drop 8).take 2) = 262
          ∧ beValue (((pack_entry { key := 3, raw_move := 262, weight := 10, learn := 0 }).drop 10).take 2) = 10
          ∧ beValue ((pack_entry { key := 3, raw_move := 262, weight := 10, learn := 0 }).drop 12) = 0) :=
  ⟨⟨by decide, by decide, by decide, by decide⟩,
    (write_polyglot_bin_spec []).2.2.2.2.2
      { key := 3, raw_move := 262, weight := 10, learn := 0 }
      (by decide) (by decide) (by decide) (by decide)⟩

/-! ### Helper lemmas about the probe response parser -/

/-- If every line before some malformed line parses and none of them carries
the sentinel, the probe loop reaches the malformed line and raises there. -/
lemma probe_lines_reaches : ∀ (pre : List String) (acc : List (String × Nat))
    (l : String) (post : List String),
    (∀ x ∈ pre, containsSub ("end-dump".data) x.data = false ∧ (parseLine x).isSome) →
    containsSub ("end-dump".data) l.data = false →
    parseLine l = Option.none →
    probe_lines (pre ++ l :: post) acc = Except.error ("Line: " ++ l) := by
  intro pre
  induction pre with
  | nil =>
    intro acc l post _ hl hbad
    simp only [List.nil_append, probe_lines, hl, hbad]
    rfl
  | cons x pre ih =>
    intro acc l post hpre hl hbad
    obtain ⟨hx1, hx2⟩ := hpre x (List.mem_cons_self x pre)
    obtain ⟨⟨m, n⟩, hmn⟩ := Option.isSome_iff_exists.mp hx2
    simp only [List.cons_append, probe_lines, hx1, hmn]
    exact ih (dictInsert m n acc) l post
      (fun y hy => hpre y (List.mem_cons_of_mem x hy)) hl hbad

/-- If the stream runs out with every line parsing and no sentinel seen, the
probe loop falls off the end of the stream and raises. -/
lemma probe_lines_eof : ∀ (lines : List String) (acc : List (String × Nat)),
    (∀ x ∈ lines, containsSub ("end-dump".data) x.data = false ∧ (parseLine x).isSome) →
    ∃ msg, probe_lines lines acc = Except.error msg := by
  intro lines
  induction lines with
  | nil =>
    intro acc _
    exact ⟨"stream ended with no end-dump sentinel", rfl⟩
  | cons x lines ih =>
    intro acc h
    obtain ⟨hx1, hx2⟩ := h x (List.mem_cons_self x lines)
    obtain ⟨⟨m, n⟩, hmn⟩ := Option.isSome_iff_exists.mp hx2
    simp only [probe_lines, hx1, hmn]
    exact ih (dictInsert m n acc) (fun y hy => h y (List.mem_cons_of_mem x hy))

/-- Claim C5: if, before any `end-dump` sentinel, the response stream holds a
line from which the move token or the visit-count token cannot be extracted,
`probe` raises an error instead of skipping the line or returning a partial
mapping; and if the stream ends with no sentinel seen (so `readline` yields
an empty line, which carries neither token), `probe` raises as well rather
than hanging or succeeding. -/
theorem probe_raises_on_malformed :
    (∀ (pre : List String) (l : String) (post : List String),
        (∀ x ∈ pre, containsSub ("end-dump".data) x.data = false ∧ (parseLine x).isSome) →
        containsSub ("end-dump".data) l.data = false →
        parseLine l = Option.none →
        ∃ msg, probe (pre ++ l :: post) = Except.error msg)
      ∧ (∀ lines : List String,
          (∀ x ∈ lines, containsSub ("end-dump".data) x.data = false ∧ (parseLine x).isSome) →
          ∃ msg, probe lines = Except.error msg) := by
  constructor
  · intro pre l post hpre hl hbad
    exact ⟨"Line: " ++ l, probe_lines_reaches pre [] l post hpre hl hbad⟩
  · intro lines h
    exact probe_lines_eof lines [] h

/-- Witness for `probe_raises_on_malformed`: one well-formed statistics line
followed by a line with no tokens makes `probe` fail. -/
theorem probe_raises_on_malformed_witness :
    (containsSub ("end-dump".data) ("info bad line".data) = false)
      ∧ parseLine "info bad line" = Option.none
      ∧ ∃ msg, probe ["move=e2e4 n=100", "info bad line"] = Except.error msg :=
  ⟨by decide, by decide,
    probe_raises_on_malformed.1 ["move=e2e4 n=100"] "info bad line" []
      (by decide) (by decide) (by decide)⟩

/-- Joining the list that prepends one space to every move equals one space
followed by the space-separated moves. -/
lemma join_space : ∀ (ms : List String) (m : String),
    String.join ((m :: ms).map fun s => " " ++ s) = " " ++ spaceSeparated (m :: ms) := by
  intro ms
  induction ms with
  | nil =>
    intro m
    apply String.ext
    simp [String.data_join, spaceSeparated]
  | cons m2 ms ih =>
    intro m
    apply String.ext
    have hd := congrArg String.data (ih m2)
    simp only [String.data_join, String.data_append, List.map_cons, List.map_map,
      List.flatten_cons] at hd ⊢
    rw [List.append_assoc] at hd
    have hd2 := List.append_cancel_left hd
    simp [spaceSeparated, hd2]

/-- Claim C9: the command built by `probe` is the single line
`dumpnode moves <m1> <m2> ...` terminated by one newline, the moves appearing
in their UCI serializations separated by single spaces, and with an empty
move path the moves are omitted entirely: the command is exactly
`dumpnode moves` plus the newline. -/
theorem dump_command_form :
    dump_command [] = "dumpnode moves" ++ "\n"
      ∧ ∀ (m : String) (ms : List String),
          dump_command (m :: ms) = "dumpnode moves" ++ " " ++ spaceSeparated (m :: ms) ++ "\n" := by
  constructor
  · apply String.ext
    simp [dump_command, String.data_join]
  · intro m ms
    rw [dump_command, join_space ms m]
    apply String.ext
    simp [String.data_append]

/-! ### The multiwrite loop -/

/-- Invariant of `multiwrite_loop` starting from any threshold `t`: the
`k`-th written file (when it exists) is for threshold `t * 2 ^ k`, holds the
entries of the traversal at that threshold, and was written because the
traversal produced strictly more than 2 entries; and if the loop stopped on
its own (fuel left over), the first unwritten threshold's traversal produced
at most 2 entries. -/
lemma multiwrite_loop_spec (z : List Move → Nat) (tree : PTree) (output : String) :
    ∀ (fuel t : Nat),
      (∀ k, k < (multiwrite_loop z tree output t fuel).length →
        (multiwrite_loop z tree output t fuel)[k]? =
            some (book_file_name output (t * 2 ^ k), explore_tree z tree [] (t * 2 ^ k))
          ∧ 2 < (explore_tree z tree [] (t * 2 ^ k)).length)
      ∧ ((multiwrite_loop z tree output t fuel).length < fuel →
          (explore_tree z tree [] (t * 2 ^ (multiwrite_loop z tree output t fuel).length)).length ≤ 2) := by
  intro fuel
  induction fuel with
  | zero =>
    intro t
    constructor
    · intro k hk
      simp only [multiwrite_loop, List.length_nil] at hk
      omega
    · intro h
      simp only [multiwrite_loop, List.length_nil] at h
      omega
  | succ fuel ih =>
    intro t
    by_cases h : 2 < (explore_tree z tree [] t).length
    · have hunf : multiwrite_loop z tree output t (fuel + 1)
          = (book_file_name output t, explore_tree z tree [] t)
              :: multiwrite_loop z tree output (t * 2) fuel := by
        rw [multiwrite_loop]
        simp [h]
      constructor
      · intro k hk
        match k with
        | 0 =>
          rw [hunf]
          refine ⟨?_, ?_⟩
          · simp
          · simpa using h
        | k + 1 =>
          rw [hunf] at hk ⊢
          simp only [List.length_cons, Nat.add_lt_add_iff_right] at hk
          have hk' := (ih (t * 2)).1 k hk
          have harith : t * 2 * 2 ^ k = t * 2 ^ (k + 1) := by ring
          rw [harith] at hk'
          simpa only [List.getElem?_cons_succ] using hk'
      · intro hlt
        rw [hunf] at hlt ⊢
        simp only [List.length_cons] at hlt ⊢
        have hlt' : (multiwrite_loop z tree output (t * 2) fuel).length < fuel := by omega
        have hstop := (ih (t * 2)).2 hlt'
        have harith : t * 2 * 2 ^ (multiwrite_loop z tree output (t * 2) fuel).length
            = t * 2 ^ ((multiwrite_loop z tree output (t * 2) fuel).length + 1) := by ring
        rw [harith] at hstop
        exact hstop
    · have hunf : multiwrite_loop z tree output t (fuel + 1) = [] := by
        rw [multiwrite_loop]
        simp [h]
      constructor
      · intro k hk
        rw [hunf] at hk
        simp at hk
      · intro _
        rw [hunf]
        simp only [List.length_nil, Nat.pow_zero, Nat.mul_one]
        omega

/-- Claim C10: in multiwrite mode the first traversal runs at threshold 256
and every later traversal doubles it; the `k`-th book file that gets written
is named by suffixing the output path with the threshold (`-<threshold>n.bin`)
and corresponds to a traversal with strictly more than 2 entries; and when
the loop stops on its own, the stopping traversal produced at most 2 entries
and no file was written for it. -/
theorem multiwrite_files (z : List Move → Nat) (tree : PTree) (output : String) (fuel : Nat) :
    (∀ k, k < (multiwrite z tree output fuel).length →
      (multiwrite z tree output fuel)[k]? =
          some (book_file_name output (256 * 2 ^ k), explore_tree z tree [] (256 * 2 ^ k))
        ∧ 2 < (explore_tree z tree [] (256 * 2 ^ k)).length)
      ∧ ((multiwrite z tree output fuel).length < fuel →
          (explore_tree z tree [] (256 * 2 ^ (multiwrite z tree output fuel).length)).length ≤ 2) :=
  multiwrite_loop_spec z tree output fuel 256

/-! ### Concrete data for the witnesses -/

/-- A concrete stand-in for the abstract zobrist hash. -/
def z0 : List Move → Nat :=
  fun moves => moves.length

/-- Concrete move a2a3. -/
def mA : Move :=
  { from_square := 8, to_square := 16, promotion := Option.none }

/-- Concrete move b2b3. -/
def mB : Move :=
  { from_square := 9, to_square := 17, promotion := Option.none }

/-- Concrete move c2c3. -/
def mC : Move :=
  { from_square := 10, to_square := 18, promotion := Option.none }

/-- Concrete move d2d3. -/
def mD : Move :=
  { from_square := 11, to_square := 19, promotion := Option.none }

/-- A concrete probe tree: two root children above 256 visits, each with one
tiny grandchild. -/
def wtree : PTree :=
  PTree.node
    [(mA, 300, PTree.node [(mC, 1, PTree.node [])]),
     (mB, 260, PTree.node [(mD, 1, PTree.node [])])]

/-- Witness for `explore_tree_best_move`: with visit counts 5 and 9 the
recorded move is the second child, the one with the maximum count. -/
theorem explore_tree_best_move_witness :
    ∃ best, bestChild [(mA, 5, PTree.node []), (mB, 9, PTree.node [])] = some best
      ∧ best ∈ [(mA, 5, PTree.node []), (mB, 9, PTree.node [])]
      ∧ (∀ x ∈ [(mA, 5, PTree.node []), (mB, 9, PTree.node [])], x.2.1 ≤ best.2.1)
      ∧ (explore_tree z0 (PTree.node [(mA, 5, PTree.node []), (mB, 9, PTree.node [])]) [] 7).head? =
          some (make_entry z0 [] best.1 (min 0xffff (best.2.1 / 256)) 0) :=
  explore_tree_best_move z0 (mA, 5, PTree.node []) [(mB, 9, PTree.node [])] [] 7

/-- Witness for `multiwrite_files`: on `wtree` the threshold-256 traversal
yields 3 entries (one file written) and the threshold-512 traversal yields 1
entry (the loop stops without writing). -/
theorem multiwrite_files_witness :
    (0 : Nat) < (multiwrite z0 wtree "book" 5).length
      ∧ (multiwrite z0 wtree "book" 5).length < 5
      ∧ (multiwrite z0 wtree "book" 5)[0]? =
          some (book_file_name "book" (256 * 2 ^ 0), explore_tree z0 wtree [] (256 * 2 ^ 0))
      ∧ (explore_tree z0 wtree [] (256 * 2 ^ (multiwrite z0 wtree "book" 5).length)).length ≤ 2 := by
  have h := multiwrite_files z0 wtree "book" 5
  have hlen : (multiwrite z0 wtree "book" 5).length = 1 := by
    simp [multiwrite, multiwrite_loop, explore_tree, wtree, z0, mA, mB, mC, mD,
      maxChild, make_entry, book_file_name]
  refine ⟨by omega, by omega, (h.1 0 (by omega)).1, h.2 (by omega)⟩

end BookMaker
